import Mathlib

/-!
Shallow embedding of the bitvek crate: a packed bit vector storing bits
MSB-first inside machine words, with logical length tracked separately from
the storage word list. Words are modelled as natural numbers below 2 ^ 64;
machine-level operations take all bounds explicitly. Fallible operations
(push with its capacity-overflow panic, the fallible accessors) return
Option values.
-/

namespace Bitvek

/-- Number of bits per storage word (usize width, modelled as 64). -/
def WORD_BITS : Nat := 64

/-- Number of bytes per storage word. -/
def WORD_BYTES : Nat := 8

/-- Largest value representable in a usize. -/
def USIZE_MAX : Nat := 2 ^ 64 - 1

namespace Word

/-- Word with only the most significant bit, from src/primitive.rs MSB_SET. -/
def MSB_SET : Nat := 2 ^ (WORD_BITS - 1)

/-- All-zero word, from src/primitive.rs MSB_CLEAR. -/
def MSB_CLEAR : Nat := 0

/-- All-zero word, from src/primitive.rs CLEAR. -/
def CLEAR : Nat := 0

/-- Single-bit mask with the bit at the given offset, counted from the most
significant bit, from src/primitive.rs Word::mask. -/
def mask (index : Nat) : Nat := 2 ^ (WORD_BITS - 1 - index)

/-- Bit of a word at the given MSB-first offset, from src/primitive.rs
Word::get: the word ANDed with the mask, compared against zero. -/
def get (w index : Nat) : Bool := w &&& mask index != 0

/-- Write one bit of a word at the given MSB-first offset, from
src/primitive.rs Word::set: OR with the mask to raise the bit, AND with the
complement of the mask to clear it. The Rust complement on usize is modelled
as XOR against the all-ones word. -/
def set (w index : Nat) (value : Bool) : Nat :=
  if value then w ||| mask index else w &&& (USIZE_MAX ^^^ mask index)

/-- Bitwise complement of a word, from the Not impl in src/primitive.rs,
modelled as XOR against the all-ones word. -/
def not (w : Nat) : Nat := USIZE_MAX ^^^ w

/-- Shift the word right so that the bit at offset last lands at the least
significant position, from src/primitive.rs Word::align_last_to_lsb. -/
def align_last_to_lsb (w last : Nat) : Nat := w >>> (WORD_BITS - 1 - last)

/-- Big-endian word value of a byte list, from src/primitive.rs
Word::from_byte_array (usize::from_be_bytes). -/
def from_byte_array (bytes : List Nat) : Nat :=
  bytes.foldl (fun acc b => acc * 256 + b) 0

/-- Word value of a byte slice of at most WORD_BYTES bytes, zero-padding the
missing trailing (least significant) bytes, from src/primitive.rs
Word::from_byte_slice. -/
def from_byte_slice (bytes : List Nat) : Nat :=
  from_byte_array (bytes ++ List.replicate (WORD_BYTES - bytes.length) 0)

end Word

/-- The bit vector: a logical bit count and a list of storage words, from
src/lib.rs struct BitVec. -/
structure BitVec where
  len : Nat
  buf : List Nat
deriving DecidableEq

/-- Number of storage words actually holding live bits, from src/lib.rs
BitVec::buf_used, which is len.div_ceil(Word::BITS). -/
def BitVec.buf_used (v : BitVec) : Nat := (v.len + WORD_BITS - 1) / WORD_BITS

/-- The representation invariant stated in src/lib.rs together with the
machine-integer bounds of the Rust types: the live-word count never exceeds
the number of initialized buffer words, the length fits in a usize, and
every stored word fits in a machine word. -/
def Wf (v : BitVec) : Prop :=
  v.buf_used ≤ v.buf.length ∧ v.len ≤ USIZE_MAX ∧ ∀ w ∈ v.buf, w < 2 ^ WORD_BITS

instance (v : BitVec) : Decidable (Wf v) := by
  unfold Wf
  infer_instance

/-- A bit index decomposed into word index and in-word offset, from
src/lib.rs struct Loc. -/
structure Loc where
  period : Nat
  offset : Nat

/-- Decomposition of a logical index, from src/lib.rs Loc::new. -/
def Loc.new (index : Nat) : Loc := ⟨index / WORD_BITS, index % WORD_BITS⟩

/-- Empty vector, from src/lib.rs BitVec::new. -/
def BitVec.new : BitVec := ⟨0, []⟩

/-- Empty vector with reserved capacity, from src/lib.rs
BitVec::with_capacity; capacity is not part of the model, the buffer holds
no initialized words. -/
def BitVec.with_capacity (_capacity : Nat) : BitVec := ⟨0, []⟩

/-- Unchecked logical bit read, from src/lib.rs BitVec::get_unchecked. -/
def BitVec.get_unchecked (v : BitVec) (index : Nat) : Bool :=
  let loc := Loc.new index
  Word.get (v.buf.getD loc.period 0) loc.offset

/-- Fallible logical bit read, from src/lib.rs BitVec::get. -/
def BitVec.get (v : BitVec) (index : Nat) : Option Bool :=
  if index ≥ v.len then none else some (v.get_unchecked index)

/-- Unchecked logical bit write, from src/lib.rs BitVec::set_unchecked. -/
def BitVec.set_unchecked (v : BitVec) (index : Nat) (value : Bool) : BitVec :=
  let loc := Loc.new index
  ⟨v.len, v.buf.set loc.period (Word.set (v.buf.getD loc.period 0) loc.offset value)⟩

/-- Fallible logical bit write, from src/lib.rs BitVec::set. -/
def BitVec.set (v : BitVec) (index : Nat) (value : Bool) : Option BitVec :=
  if index ≥ v.len then none else some (v.set_unchecked index value)

/-- Append one bit, from src/lib.rs BitVec::push. Returns none exactly when
the Rust code panics with capacity overflow (length already at usize::MAX).
If the last word has room the bit is written in place, otherwise a fresh
word is appended with only its most significant bit reflecting the value. -/
def BitVec.push (v : BitVec) (value : Bool) : Option BitVec :=
  if v.len = USIZE_MAX then none
  else
    let loc := Loc.new v.len
    if loc.period < v.buf.length then
      some ⟨v.len + 1, v.buf.set loc.period
        (Word.set (v.buf.getD loc.period 0) loc.offset value)⟩
    else if value then
      some ⟨v.len + 1, v.buf ++ [Word.MSB_SET]⟩
    else
      some ⟨v.len + 1, v.buf ++ [Word.MSB_CLEAR]⟩

/-- Remove and return the last bit, from src/lib.rs BitVec::pop. The buffer
is left untouched; only the logical length shrinks. Returns the popped bit
(none when empty) together with the updated vector. -/
def BitVec.pop (v : BitVec) : Option Bool × BitVec :=
  if v.len = 0 then (none, v)
  else
    let len := v.len - 1
    let loc := Loc.new len
    (some (Word.get (v.buf.getD loc.period 0) loc.offset), ⟨len, v.buf⟩)

/-- Iterated pop, used to express draining the vector bit by bit. -/
def BitVec.pop_iter (v : BitVec) : Nat → BitVec
  | 0 => v
  | n + 1 => (v.pop).2.pop_iter n

/-- Clone, from src/lib.rs Clone for BitVec: copies only the live words. -/
def BitVec.clone (v : BitVec) : BitVec := ⟨v.len, v.buf.take v.buf_used⟩

/-- Reserve, from src/lib.rs BitVec::reserve. Only capacity changes, which
the model does not track; none models the capacity-overflow panic of the
checked addition. -/
def BitVec.reserve (v : BitVec) (additional : Nat) : Option BitVec :=
  if v.len + additional > USIZE_MAX then none else some v

/-- Shrink to fit, from src/lib.rs BitVec::shrink_to_fit: the buffer length
is set to the live-word count. -/
def BitVec.shrink_to_fit (v : BitVec) : BitVec := ⟨v.len, v.buf.take v.buf_used⟩

/-- Bounded shrink, from src/lib.rs BitVec::shrink_to. -/
def BitVec.shrink_to (v : BitVec) (min_capacity : Nat) : BitVec :=
  let buf_min_capacity := (min_capacity + WORD_BITS - 1) / WORD_BITS
  if buf_min_capacity < v.buf.length then
    ⟨v.len, v.buf.take (max v.buf_used buf_min_capacity)⟩
  else v

/-- Push a whole list of bits in order, the loop body shared by Extend and
FromIterator in src/lib.rs and src/convert.rs. -/
def BitVec.push_all : BitVec → List Bool → Option BitVec
  | v, [] => some v
  | v, value :: rest =>
    match v.push value with
    | none => none
    | some v' => v'.push_all rest

/-- Extend with bits, from src/lib.rs Extend for BitVec: reserve (which can
panic on capacity overflow) followed by pushes. -/
def BitVec.extend (v : BitVec) (values : List Bool) : Option BitVec :=
  match v.reserve values.length with
  | none => none
  | some v' => v'.push_all values

/-- Collect bits into a fresh vector, from src/convert.rs FromIterator. -/
def BitVec.from_iter (values : List Bool) : Option BitVec :=
  (BitVec.with_capacity values.length).push_all values

/-- Storage words built from a byte list, chunked WORD_BYTES at a time with
the final short chunk zero-padded, from src/convert.rs From for byte
slices. -/
def buf_from_bytes (bytes : List Nat) : List Nat :=
  if bytes = [] then []
  else Word.from_byte_slice (bytes.take WORD_BYTES) ::
    buf_from_bytes (bytes.drop WORD_BYTES)
termination_by bytes.length
decreasing_by
  rename_i h
  have hpos : 0 < bytes.length := List.length_pos.mpr h
  simp only [List.length_drop, WORD_BYTES]
  omega

/-- Build a vector from bytes, from src/convert.rs From for byte slices:
length is eight bits per byte (none models the checked-mul capacity
overflow panic). -/
def BitVec.from_bytes (bytes : List Nat) : Option BitVec :=
  if 8 * bytes.length > USIZE_MAX then none
  else some ⟨8 * bytes.length, buf_from_bytes bytes⟩

/-- Word-level binary operation across two vectors, from src/bitwise.rs
BitVec::bitwise_operation: the result length is the shorter input length
and the buffers are zipped under the operator, keeping only the live words
of the result. The two consuming variants in the source compute the same
value. -/
def BitVec.bitwise_operation (v rhs : BitVec) (op : Nat → Nat → Nat) : BitVec :=
  let len := min v.len rhs.len
  let buf_len := (len + WORD_BITS - 1) / WORD_BITS
  ⟨len, (List.zipWith op v.buf rhs.buf).take buf_len⟩

/-- AND with both operands owned, from src/bitwise/and.rs. -/
def BitVec.bitand_owned_owned (v rhs : BitVec) : BitVec :=
  v.bitwise_operation rhs (fun l r => l &&& r)

/-- AND with owned left and borrowed right operand, from src/bitwise/and.rs. -/
def BitVec.bitand_owned_ref (v rhs : BitVec) : BitVec :=
  v.bitwise_operation rhs (fun l r => l &&& r)

/-- AND with borrowed left and owned right operand, from src/bitwise/and.rs,
which delegates by swapping the operands. -/
def BitVec.bitand_ref_owned (v rhs : BitVec) : BitVec :=
  rhs.bitand_owned_ref v

/-- AND with both operands borrowed, from src/bitwise/and.rs. -/
def BitVec.bitand_ref_ref (v rhs : BitVec) : BitVec :=
  v.bitwise_operation rhs (fun l r => l &&& r)

/-- OR with both operands owned, from src/bitwise/or.rs. -/
def BitVec.bitor_owned_owned (v rhs : BitVec) : BitVec :=
  v.bitwise_operation rhs (fun l r => l ||| r)

/-- OR with owned left and borrowed right operand, from src/bitwise/or.rs. -/
def BitVec.bitor_owned_ref (v rhs : BitVec) : BitVec :=
  v.bitwise_operation rhs (fun l r => l ||| r)

/-- OR with borrowed left and owned right operand, from src/bitwise/or.rs,
which delegates by swapping the operands. -/
def BitVec.bitor_ref_owned (v rhs : BitVec) : BitVec :=
  rhs.bitor_owned_ref v

/-- OR with both operands borrowed, from src/bitwise/or.rs. -/
def BitVec.bitor_ref_ref (v rhs : BitVec) : BitVec :=
  v.bitwise_operation rhs (fun l r => l ||| r)

/-- XOR with both operands owned, from src/bitwise/xor.rs. -/
def BitVec.bitxor_owned_owned (v rhs : BitVec) : BitVec :=
  v.bitwise_operation rhs (fun l r => l ^^^ r)

/-- XOR with owned left and borrowed right operand, from src/bitwise/xor.rs. -/
def BitVec.bitxor_owned_ref (v rhs : BitVec) : BitVec :=
  v.bitwise_operation rhs (fun l r => l ^^^ r)

/-- XOR with borrowed left and owned right operand, from src/bitwise/xor.rs,
which delegates by swapping the operands. -/
def BitVec.bitxor_ref_owned (v rhs : BitVec) : BitVec :=
  rhs.bitxor_owned_ref v

/-- XOR with both operands borrowed, from src/bitwise/xor.rs. -/
def BitVec.bitxor_ref_ref (v rhs : BitVec) : BitVec :=
  v.bitwise_operation rhs (fun l r => l ^^^ r)

/-- NOT on an owned vector, from src/bitwise/not.rs: flips the live words in
place, leaving slack words untouched. -/
def BitVec.not_owned (v : BitVec) : BitVec :=
  ⟨v.len, (v.buf.take v.buf_used).map Word.not ++ v.buf.drop v.buf_used⟩

/-- NOT on a borrowed vector, from src/bitwise/not.rs: collects the flipped
live words into a fresh buffer, dropping slack words. -/
def BitVec.not_ref (v : BitVec) : BitVec :=
  ⟨v.len, (v.buf.map Word.not).take v.buf_used⟩

/-- Structural equality test, from src/lib.rs PartialEq for BitVec: equal
lengths, equal head words, and equal final live words after normalizing
away the bits beyond the last logical bit. -/
def BitVec.beq (v other : BitVec) : Bool :=
  if v.len ≠ other.len then false
  else if v.len = 0 then true
  else
    let loc := Loc.new (v.len - 1)
    let lhs_head := v.buf.take loc.period
    let rhs_head := other.buf.take loc.period
    if lhs_head ≠ rhs_head then false
    else
      Word.align_last_to_lsb ((v.buf.getD loc.period 0) ^^^ (other.buf.getD loc.period 0))
        loc.offset == 0

/-- The exact sequence of data fed to the hasher, from src/lib.rs Hash for
BitVec: nothing for the empty vector, otherwise the length, the head words
verbatim, and the normalized final live word. -/
def BitVec.hash_data (v : BitVec) : List Nat :=
  if v.len = 0 then []
  else
    let loc := Loc.new (v.len - 1)
    v.len :: v.buf.take loc.period ++
      [Word.align_last_to_lsb (v.buf.getD loc.period 0) loc.offset]

/-- Deserialization with both fields present, the shared tail of visit_seq
and visit_map in src/serde.rs: build from the bytes, then clamp the length
to the minimum of the stored length field and the bit count of the byte
buffer. No validation of the buffer size against the length field occurs. -/
def BitVec.deserialize (len : Nat) (buf : List Nat) : Option BitVec :=
  (BitVec.from_bytes buf).map fun vec => ⟨min vec.len len, vec.buf⟩

/-! Word-level helper lemmas. -/

theorem two_pow_word_le {j : Nat} (hj : WORD_BITS ≤ j) : 2 ^ WORD_BITS ≤ 2 ^ j :=
  Nat.pow_le_pow_right (by norm_num) hj

theorem testBit_eq_false_of_word_lt {w j : Nat} (hw : w < 2 ^ WORD_BITS)
    (hj : WORD_BITS ≤ j) : w.testBit j = false :=
  Nat.testBit_lt_two_pow (lt_of_lt_of_le hw (two_pow_word_le hj))

theorem land_two_pow_ne_zero_iff {w m : Nat} : w &&& 2 ^ m ≠ 0 ↔ w.testBit m = true := by
  constructor
  · intro h
    obtain ⟨i, hi⟩ := Nat.ne_zero_implies_bit_true h
    rw [Nat.testBit_and] at hi
    rcases eq_or_ne m i with rfl | hne
    · rw [Nat.testBit_two_pow_self, Bool.and_true] at hi
      exact hi
    · rw [Nat.testBit_two_pow_of_ne hne] at hi
      simp at hi
  · intro h hzero
    have hb := congrArg (fun x => x.testBit m) hzero
    simp [Nat.testBit_and, h, Nat.testBit_two_pow_self] at hb

theorem Word.get_eq_testBit (w i : Nat) :
    Word.get w i = w.testBit (WORD_BITS - 1 - i) := by
  rw [Bool.eq_iff_iff]
  unfold Word.get Word.mask
  rw [bne_iff_ne]
  exact land_two_pow_ne_zero_iff

theorem eq_zero_iff_testBit {x : Nat} : x = 0 ↔ ∀ j, x.testBit j = false := by
  constructor
  · rintro rfl j
    simp
  · intro h
    exact Nat.eq_of_testBit_eq fun i => by simp [h i]

theorem align_xor_eq_zero_iff {l r s : Nat} :
    (l ^^^ r) >>> s = 0 ↔ ∀ p, s ≤ p → l.testBit p = r.testBit p := by
  constructor
  · intro h p hp
    have hb := congrArg (fun x => x.testBit (p - s)) h
    simp only [Nat.testBit_shiftRight, Nat.zero_testBit] at hb
    rw [Nat.add_sub_cancel' hp, Nat.testBit_xor] at hb
    cases hl : l.testBit p <;> cases hr : r.testBit p <;> simp_all
  · intro h
    apply eq_zero_iff_testBit.2
    intro j
    simp only [Nat.testBit_shiftRight, Nat.testBit_xor]
    have hj := h (s + j) (Nat.le_add_right _ _)
    simp [hj]

theorem Word.set_testBit (w i : Nat) (value : Bool) (hi : i < WORD_BITS)
    {j : Nat} (hj : j < WORD_BITS) :
    (Word.set w i value).testBit j =
      if j = WORD_BITS - 1 - i then value else w.testBit j := by
  unfold Word.set Word.mask USIZE_MAX
  simp only [WORD_BITS] at hi hj ⊢
  cases value with
  | false =>
    simp only [Bool.false_eq_true, if_false]
    rw [Nat.testBit_and, Nat.testBit_xor, Nat.testBit_two_pow_sub_one, Nat.testBit_two_pow]
    by_cases h : j = 64 - 1 - i
    · have e1 : (decide (j < 64)) = true := by simp [hj]
      have e2 : (decide (64 - 1 - i = j)) = true := by simp [h]
      simp [h, e1, e2]
      exact fun _ => by omega
    · have e1 : (decide (j < 64)) = true := by simp [hj]
      have e2 : (decide (64 - 1 - i = j)) = false := by
        simp
        omega
      simp [h, e1, e2]
  | true =>
    simp only [if_true]
    rw [Nat.testBit_or, Nat.testBit_two_pow]
    by_cases h : j = 64 - 1 - i
    · have e2 : (decide (64 - 1 - i = j)) = true := by simp [h]
      simp [h, e2]
    · have e2 : (decide (64 - 1 - i = j)) = false := by
        simp
        omega
      simp [h, e2]

theorem Word.set_lt (w i : Nat) (value : Bool) (hw : w < 2 ^ WORD_BITS) :
    Word.set w i value < 2 ^ WORD_BITS := by
  unfold Word.set Word.mask
  cases value with
  | false => exact lt_of_le_of_lt Nat.and_le_left hw
  | true =>
    apply Nat.or_lt_two_pow hw
    apply Nat.pow_lt_pow_right (by norm_num)
    simp [WORD_BITS]
    omega

theorem Word.not_testBit (w : Nat) {j : Nat} (hj : j < WORD_BITS) :
    (Word.not w).testBit j = !w.testBit j := by
  unfold Word.not USIZE_MAX
  simp only [WORD_BITS] at hj
  rw [Nat.testBit_xor, Nat.testBit_two_pow_sub_one]
  have e1 : (decide (j < 64)) = true := by simp [hj]
  cases w.testBit j <;> simp [e1]

theorem Word.not_lt {w : Nat} (_hw : w < 2 ^ WORD_BITS) : Word.not w < 2 ^ WORD_BITS := by
  unfold Word.not USIZE_MAX
  apply Nat.xor_lt_two_pow _ _hw
  simp [WORD_BITS]

theorem Word.not_not (w : Nat) : Word.not (Word.not w) = w := by
  unfold Word.not
  rw [← Nat.xor_assoc, Nat.xor_self, Nat.zero_xor]

/-! List and indexing helpers. -/

theorem get_unchecked_def (v : BitVec) (i : Nat) :
    v.get_unchecked i = (v.buf.getD (i / 64) 0).testBit (63 - i % 64) := by
  unfold BitVec.get_unchecked Loc.new
  rw [Word.get_eq_testBit]
  norm_num [WORD_BITS]

theorem getD_lt_of_wf {v : BitVec} (h : Wf v) {j : Nat} (hj : j < v.buf.length) :
    v.buf.getD j 0 < 2 ^ WORD_BITS := by
  rw [List.getD_eq_getElem?_getD, List.getElem?_eq_getElem hj, Option.getD_some]
  exact h.2.2 _ (List.getElem_mem hj)

theorem buf_used_le_length_64 {v : BitVec} (h : Wf v) :
    (v.len + 64 - 1) / 64 ≤ v.buf.length := by
  have hb := h.1
  unfold BitVec.buf_used WORD_BITS at hb
  exact hb

theorem take_eq_iff_getD {l1 l2 : List Nat} {k : Nat} (hk1 : k ≤ l1.length)
    (hk2 : k ≤ l2.length) :
    l1.take k = l2.take k ↔ ∀ j, j < k → l1.getD j 0 = l2.getD j 0 := by
  constructor
  · intro h j hj
    have hc := congrArg (fun l => l.getD j 0) h
    simpa [List.getD_eq_getElem?_getD, List.getElem?_take_of_lt hj] using hc
  · intro h
    apply List.ext_getElem?
    intro n
    by_cases hn : n < k
    · rw [List.getElem?_take_of_lt hn, List.getElem?_take_of_lt hn]
      have e := h n hn
      rw [List.getD_eq_getElem?_getD, List.getD_eq_getElem?_getD,
        List.getElem?_eq_getElem (lt_of_lt_of_le hn hk1),
        List.getElem?_eq_getElem (lt_of_lt_of_le hn hk2)] at e
      simp only [Option.getD_some] at e
      rw [List.getElem?_eq_getElem (lt_of_lt_of_le hn hk1),
        List.getElem?_eq_getElem (lt_of_lt_of_le hn hk2), e]
    · have hn' : k ≤ n := by omega
      rw [List.getElem?_eq_none, List.getElem?_eq_none]
      · simp only [List.length_take]
        omega
      · simp only [List.length_take]
        omega

/-! Pieces of the equality characterization. -/

theorem head_word_eq_of_bits {v other : BitVec} (h1 : Wf v) (h2 : Wf other)
    (hlen : v.len = other.len)
    (hbits : ∀ i, i < v.len → v.get_unchecked i = other.get_unchecked i)
    {j : Nat} (hj : j < (v.len - 1) / 64) :
    v.buf.getD j 0 = other.buf.getD j 0 := by
  have hl1 : j < v.buf.length := by
    have := buf_used_le_length_64 h1
    omega
  have hl2 : j < other.buf.length := by
    have := buf_used_le_length_64 h2
    rw [← hlen] at this
    omega
  apply Nat.eq_of_testBit_eq
  intro q
  by_cases hq : q < 64
  · have hi : 64 * j + (63 - q) < v.len := by omega
    have hb := hbits _ hi
    rw [get_unchecked_def, get_unchecked_def] at hb
    have ediv : (64 * j + (63 - q)) / 64 = j := by omega
    have emod : 63 - (64 * j + (63 - q)) % 64 = q := by omega
    rw [ediv, emod] at hb
    exact hb
  · rw [testBit_eq_false_of_word_lt (getD_lt_of_wf h1 hl1) (by simp [WORD_BITS]; omega),
      testBit_eq_false_of_word_lt (getD_lt_of_wf h2 hl2) (by simp [WORD_BITS]; omega)]

theorem tail_align_of_bits {v other : BitVec} (h1 : Wf v) (h2 : Wf other)
    (hlen : v.len = other.len) (h0 : v.len ≠ 0)
    (hbits : ∀ i, i < v.len → v.get_unchecked i = other.get_unchecked i) :
    ((v.buf.getD ((v.len - 1) / 64) 0) ^^^ (other.buf.getD ((v.len - 1) / 64) 0)) >>>
      (63 - (v.len - 1) % 64) = 0 := by
  have hl1 : (v.len - 1) / 64 < v.buf.length := by
    have := buf_used_le_length_64 h1
    omega
  have hl2 : (v.len - 1) / 64 < other.buf.length := by
    have := buf_used_le_length_64 h2
    rw [← hlen] at this
    omega
  apply align_xor_eq_zero_iff.2
  intro q hq
  by_cases hq64 : q < 64
  · have hi : 64 * ((v.len - 1) / 64) + (63 - q) < v.len := by omega
    have hb := hbits _ hi
    rw [get_unchecked_def, get_unchecked_def] at hb
    have ediv : (64 * ((v.len - 1) / 64) + (63 - q)) / 64 = (v.len - 1) / 64 := by omega
    have emod : 63 - (64 * ((v.len - 1) / 64) + (63 - q)) % 64 = q := by omega
    rw [ediv, emod] at hb
    exact hb
  · rw [testBit_eq_false_of_word_lt (getD_lt_of_wf h1 hl1) (by simp [WORD_BITS]; omega),
      testBit_eq_false_of_word_lt (getD_lt_of_wf h2 hl2) (by simp [WORD_BITS]; omega)]

theorem bits_eq_of_parts {v other : BitVec} (hlen : v.len = other.len) (_h0 : v.len ≠ 0)
    (hhead : v.buf.take ((v.len - 1) / 64) = other.buf.take ((v.len - 1) / 64))
    (htail : ((v.buf.getD ((v.len - 1) / 64) 0) ^^^ (other.buf.getD ((v.len - 1) / 64) 0)) >>>
      (63 - (v.len - 1) % 64) = 0) :
    ∀ i, i < v.len → v.get_unchecked i = other.get_unchecked i := by
  intro i hi
  rw [get_unchecked_def, get_unchecked_def]
  by_cases hp : i / 64 < (v.len - 1) / 64
  · have hc := congrArg (fun l => l.getD (i / 64) 0) hhead
    simp only [List.getD_eq_getElem?_getD, List.getElem?_take_of_lt hp] at hc
    rw [List.getD_eq_getElem?_getD, List.getD_eq_getElem?_getD, hc]
  · have hp' : i / 64 = (v.len - 1) / 64 := by omega
    have hmod : i % 64 ≤ (v.len - 1) % 64 := by omega
    rw [hp']
    exact align_xor_eq_zero_iff.1 htail _ (by omega)

theorem beq_iff {v other : BitVec} (h1 : Wf v) (h2 : Wf other) :
    (v.beq other = true) ↔
      (v.len = other.len ∧
        ∀ i, i < v.len → v.get_unchecked i = other.get_unchecked i) := by
  unfold BitVec.beq
  split
  · rename_i hne
    simp only [Bool.false_eq_true, false_iff, not_and]
    exact fun he => absurd he hne
  · rename_i hne
    have hlen : v.len = other.len := not_ne_iff.1 hne
    split
    · rename_i h0
      exact ⟨fun _ => ⟨hlen, fun i hi => absurd hi (by omega)⟩, fun _ => rfl⟩
    · rename_i h0
      simp only [Loc.new, WORD_BITS]
      split
      · rename_i hhead
        simp only [Bool.false_eq_true, false_iff, not_and]
        intro _ hbits
        apply hhead
        have hk1 : (v.len - 1) / 64 ≤ v.buf.length := by
          have := buf_used_le_length_64 h1
          omega
        have hk2 : (v.len - 1) / 64 ≤ other.buf.length := by
          have := buf_used_le_length_64 h2
          rw [← hlen] at this
          omega
        exact (take_eq_iff_getD hk1 hk2).2 fun j hj =>
          head_word_eq_of_bits h1 h2 hlen hbits hj
      · rename_i hhead
        have hhead' : v.buf.take ((v.len - 1) / 64) = other.buf.take ((v.len - 1) / 64) :=
          not_ne_iff.1 hhead
        constructor
        · intro halign
          refine ⟨hlen, ?_⟩
          apply bits_eq_of_parts hlen h0 hhead'
          unfold Word.align_last_to_lsb WORD_BITS at halign
          have ha := beq_iff_eq.1 halign
          norm_num at ha ⊢
          exact ha
        · rintro ⟨-, hbits⟩
          apply beq_iff_eq.2
          unfold Word.align_last_to_lsb WORD_BITS
          have ha := tail_align_of_bits h1 h2 hlen h0 hbits
          norm_num at ha ⊢
          exact ha

/-! Simple facts about pop. -/

theorem pop_buf (v : BitVec) : (v.pop).2.buf = v.buf := by
  unfold BitVec.pop
  split <;> rfl

theorem pop_len (v : BitVec) : (v.pop).2.len = v.len - 1 := by
  unfold BitVec.pop
  split
  · rename_i h
    simp [h]
  · rfl

theorem pop_len_mk {L : Nat} {bf : List Nat} : (BitVec.pop ⟨L, bf⟩).2.len = L - 1 :=
  pop_len ⟨L, bf⟩

theorem pop_buf_mk {L : Nat} {bf : List Nat} : (BitVec.pop ⟨L, bf⟩).2.buf = bf :=
  pop_buf ⟨L, bf⟩

theorem pop_iter_buf (v : BitVec) (n : Nat) : (v.pop_iter n).buf = v.buf := by
  induction n generalizing v with
  | zero => rfl
  | succ n ih =>
    unfold BitVec.pop_iter
    rw [ih, pop_buf]

theorem pop_iter_len (v : BitVec) (n : Nat) : (v.pop_iter n).len = v.len - n := by
  induction n generalizing v with
  | zero => rfl
  | succ n ih =>
    unfold BitVec.pop_iter
    rw [ih, pop_len]
    omega

/-! Preservation of the representation invariant. -/

theorem wf_set_word {v : BitVec} (h : Wf v) {p : Nat} (_hp : p < v.buf.length) {w' : Nat}
    (hw' : w' < 2 ^ WORD_BITS) : Wf ⟨v.len, v.buf.set p w'⟩ := by
  refine ⟨?_, h.2.1, ?_⟩
  · simpa [BitVec.buf_used, List.length_set] using h.1
  · intro w hw
    rcases List.mem_or_eq_of_mem_set hw with hmem | rfl
    · exact h.2.2 _ hmem
    · exact hw'

theorem wf_new : Wf BitVec.new := by
  refine ⟨?_, ?_, ?_⟩ <;> simp [BitVec.new, BitVec.buf_used, WORD_BITS, USIZE_MAX]

theorem wf_with_capacity (c : Nat) : Wf (BitVec.with_capacity c) := by
  refine ⟨?_, ?_, ?_⟩ <;>
    simp [BitVec.with_capacity, BitVec.buf_used, WORD_BITS, USIZE_MAX]

theorem wf_push {v : BitVec} {b : Bool} {v' : BitVec} (h : Wf v) (hp : v.push b = some v') :
    Wf v' := by
  unfold BitVec.push at hp
  by_cases hmax : v.len = USIZE_MAX
  · simp [hmax] at hp
  · rw [if_neg hmax] at hp
    simp only [Loc.new, WORD_BITS] at hp
    have hlenmax : v.len < USIZE_MAX := lt_of_le_of_ne h.2.1 hmax
    by_cases hper : v.len / 64 < v.buf.length
    · rw [if_pos hper] at hp
      obtain rfl := Option.some.inj hp
      have hword : Word.set (v.buf.getD (v.len / 64) 0) (v.len % 64) b < 2 ^ WORD_BITS :=
        Word.set_lt _ _ _ (getD_lt_of_wf h hper)
      refine ⟨?_, by show v.len + 1 ≤ USIZE_MAX; omega, ?_⟩
      · simp only [BitVec.buf_used, WORD_BITS, List.length_set]
        have hb := buf_used_le_length_64 h
        omega
      · intro w hw
        rcases List.mem_or_eq_of_mem_set hw with hmem | rfl
        · exact h.2.2 _ hmem
        · exact hword
    · rw [if_neg hper] at hp
      have hb := buf_used_le_length_64 h
      have hnew : ∀ u : Nat, u < 2 ^ WORD_BITS → v' = ⟨v.len + 1, v.buf ++ [u]⟩ → Wf v' := by
        rintro u hu rfl
        refine ⟨?_, by show v.len + 1 ≤ USIZE_MAX; omega, ?_⟩
        · simp only [BitVec.buf_used, WORD_BITS, List.length_append, List.length_cons,
            List.length_nil]
          omega
        · intro w hw
          rcases List.mem_append.1 hw with hmem | hmem
          · exact h.2.2 _ hmem
          · rw [List.mem_singleton.1 hmem]
            exact hu
      cases b with
      | true =>
        rw [if_pos rfl] at hp
        refine hnew _ ?_ (Option.some.inj hp).symm
        simp [Word.MSB_SET, WORD_BITS]
      | false =>
        rw [if_neg (by simp)] at hp
        refine hnew _ ?_ (Option.some.inj hp).symm
        simp [Word.MSB_CLEAR, WORD_BITS]

theorem wf_pop {v : BitVec} (h : Wf v) : Wf (v.pop).2 := by
  refine ⟨?_, ?_, ?_⟩
  · rw [pop_buf]
    have hb := h.1
    simp only [BitVec.buf_used, WORD_BITS] at hb ⊢
    rw [pop_len]
    omega
  · rw [pop_len]
    have := h.2.1
    omega
  · rw [pop_buf]
    exact h.2.2

theorem wf_set {v : BitVec} {i : Nat} {b : Bool} {v' : BitVec} (h : Wf v)
    (hs : v.set i b = some v') : Wf v' := by
  unfold BitVec.set at hs
  by_cases hi : i ≥ v.len
  · simp [hi] at hs
  · rw [if_neg hi] at hs
    obtain rfl := Option.some.inj hs
    unfold BitVec.set_unchecked
    simp only [Loc.new, WORD_BITS]
    have hp : i / 64 < v.buf.length := by
      have := buf_used_le_length_64 h
      omega
    exact wf_set_word h hp (Word.set_lt _ _ _ (getD_lt_of_wf h hp))

theorem wf_take_buf {v : BitVec} (h : Wf v) {k : Nat} (hk : v.buf_used ≤ k) :
    Wf ⟨v.len, v.buf.take k⟩ := by
  refine ⟨?_, h.2.1, ?_⟩
  · have h1 := h.1
    simp only [BitVec.buf_used, WORD_BITS, List.length_take] at h1 hk ⊢
    omega
  · intro w hw
    exact h.2.2 _ (List.mem_of_mem_take hw)

theorem wf_clone {v : BitVec} (h : Wf v) : Wf v.clone :=
  wf_take_buf h (le_refl _)

theorem wf_shrink_to_fit {v : BitVec} (h : Wf v) : Wf v.shrink_to_fit :=
  wf_take_buf h (le_refl _)

theorem wf_shrink_to {v : BitVec} (h : Wf v) (m : Nat) : Wf (v.shrink_to m) := by
  simp only [BitVec.shrink_to]
  split
  · exact wf_take_buf h (le_max_left _ _)
  · exact h

theorem wf_reserve {v : BitVec} {a : Nat} {v' : BitVec} (h : Wf v)
    (hr : v.reserve a = some v') : Wf v' := by
  unfold BitVec.reserve at hr
  split at hr
  · exact absurd hr (by simp)
  · exact (Option.some.inj hr) ▸ h

theorem wf_push_all {v : BitVec} {l : List Bool} {v' : BitVec} (h : Wf v)
    (hp : v.push_all l = some v') : Wf v' := by
  induction l generalizing v with
  | nil =>
    unfold BitVec.push_all at hp
    exact (Option.some.inj hp) ▸ h
  | cons b rest ih =>
    unfold BitVec.push_all at hp
    split at hp
    · exact absurd hp (by simp)
    · rename_i vmid hv
      exact ih (wf_push h hv) hp

theorem wf_extend {v : BitVec} {l : List Bool} {v' : BitVec} (h : Wf v)
    (he : v.extend l = some v') : Wf v' := by
  unfold BitVec.extend at he
  split at he
  · exact absurd he (by simp)
  · rename_i vmid hv
    exact wf_push_all (wf_reserve h hv) he

theorem wf_from_iter {l : List Bool} {v' : BitVec} (hp : BitVec.from_iter l = some v') :
    Wf v' :=
  wf_push_all (wf_with_capacity _) hp

/-! The word-level binary operators. -/

theorem bitwise_len (a b : BitVec) (op : Nat → Nat → Nat) :
    (a.bitwise_operation b op).len = min a.len b.len := rfl

theorem bitwise_buf_eq (a b : BitVec) (op : Nat → Nat → Nat) :
    (a.bitwise_operation b op).buf =
      List.zipWith op (a.buf.take ((min a.len b.len + 64 - 1) / 64))
        (b.buf.take ((min a.len b.len + 64 - 1) / 64)) := by
  unfold BitVec.bitwise_operation
  simp only [WORD_BITS]
  exact List.take_zipWith

theorem bitwise_buf_length {a b : BitVec} (h1 : Wf a) (h2 : Wf b) (op : Nat → Nat → Nat) :
    (a.bitwise_operation b op).buf.length = (min a.len b.len + 64 - 1) / 64 := by
  rw [bitwise_buf_eq]
  have ha := buf_used_le_length_64 h1
  have hb := buf_used_le_length_64 h2
  simp only [List.length_zipWith, List.length_take]
  omega

theorem wf_bitwise_operation {a b : BitVec} (h1 : Wf a) (h2 : Wf b) {op : Nat → Nat → Nat}
    (hop : ∀ x y, x < 2 ^ WORD_BITS → y < 2 ^ WORD_BITS → op x y < 2 ^ WORD_BITS) :
    Wf (a.bitwise_operation b op) := by
  refine ⟨?_, ?_, ?_⟩
  · rw [BitVec.buf_used, bitwise_len, bitwise_buf_length h1 h2]
    simp only [WORD_BITS]
    exact le_refl _
  · rw [bitwise_len]
    exact le_trans (Nat.min_le_left _ _) h1.2.1
  · intro w hw
    rw [bitwise_buf_eq] at hw
    obtain ⟨n, hn⟩ := List.mem_iff_getElem?.1 hw
    rw [List.getElem?_zipWith] at hn
    cases ha : (a.buf.take ((min a.len b.len + 64 - 1) / 64))[n]? with
    | none => rw [ha] at hn; simp at hn
    | some x =>
      cases hb : (b.buf.take ((min a.len b.len + 64 - 1) / 64))[n]? with
      | none => rw [ha, hb] at hn; simp at hn
      | some y =>
        rw [ha, hb] at hn
        simp only [Option.some.injEq] at hn
        rw [← hn]
        have hxa : x ∈ a.buf :=
          List.mem_of_mem_take (List.mem_iff_getElem?.2 ⟨n, ha⟩)
        have hyb : y ∈ b.buf :=
          List.mem_of_mem_take (List.mem_iff_getElem?.2 ⟨n, hb⟩)
        exact hop x y (h1.2.2 _ hxa) (h2.2.2 _ hyb)

theorem bitwise_get {a b : BitVec} (h1 : Wf a) (h2 : Wf b) {op : Nat → Nat → Nat}
    {bop : Bool → Bool → Bool}
    (hop : ∀ x y j, (op x y).testBit j = bop (x.testBit j) (y.testBit j))
    {i : Nat} (hi : i < min a.len b.len) :
    (a.bitwise_operation b op).get_unchecked i =
      bop (a.get_unchecked i) (b.get_unchecked i) := by
  have hp : i / 64 < (min a.len b.len + 64 - 1) / 64 := by omega
  have hpa : i / 64 < a.buf.length := by
    have := buf_used_le_length_64 h1
    omega
  have hpb : i / 64 < b.buf.length := by
    have := buf_used_le_length_64 h2
    omega
  rw [get_unchecked_def, get_unchecked_def, get_unchecked_def, bitwise_buf_eq]
  rw [List.getD_eq_getElem?_getD, List.getElem?_zipWith,
    List.getElem?_take_of_lt hp, List.getElem?_take_of_lt hp,
    List.getElem?_eq_getElem hpa, List.getElem?_eq_getElem hpb]
  simp only [Option.getD_some]
  rw [hop]
  rw [List.getD_eq_getElem?_getD, List.getD_eq_getElem?_getD,
    List.getElem?_eq_getElem hpa, List.getElem?_eq_getElem hpb]
  simp only [Option.getD_some]

theorem bitwise_operation_comm (a b : BitVec) (op : Nat → Nat → Nat)
    (hcomm : ∀ x y, op x y = op y x) :
    b.bitwise_operation a op = a.bitwise_operation b op := by
  unfold BitVec.bitwise_operation
  simp only [WORD_BITS]
  rw [Nat.min_comm b.len a.len, List.zipWith_comm_of_comm op hcomm b.buf a.buf]

/-! The NOT operator. -/

theorem wf_not_owned {v : BitVec} (h : Wf v) : Wf v.not_owned := by
  refine ⟨?_, h.2.1, ?_⟩
  · have h1 := h.1
    simp only [BitVec.not_owned, BitVec.buf_used, WORD_BITS, List.length_append,
      List.length_map, List.length_take, List.length_drop] at h1 ⊢
    omega
  · intro w hw
    rcases List.mem_append.1 hw with hmem | hmem
    · obtain ⟨x, hx, rfl⟩ := List.mem_map.1 hmem
      exact Word.not_lt (h.2.2 _ (List.mem_of_mem_take hx))
    · exact h.2.2 _ (List.mem_of_mem_drop hmem)

theorem wf_not_ref {v : BitVec} (h : Wf v) : Wf v.not_ref := by
  refine ⟨?_, h.2.1, ?_⟩
  · have h1 := h.1
    simp only [BitVec.not_ref, BitVec.buf_used, WORD_BITS, List.length_take,
      List.length_map] at h1 ⊢
    omega
  · intro w hw
    obtain ⟨x, hx, rfl⟩ := List.mem_map.1 (List.mem_of_mem_take hw)
    exact Word.not_lt (h.2.2 _ hx)

theorem map_not_not (l : List Nat) : (l.map Word.not).map Word.not = l := by
  rw [List.map_map]
  have hid : ∀ x, (Word.not ∘ Word.not) x = x := fun x => Word.not_not x
  exact List.map_id'' hid l

theorem not_owned_not_owned {v : BitVec} (h : Wf v) : v.not_owned.not_owned = v := by
  have hbu : v.buf_used ≤ v.buf.length := h.1
  have hlen : ((v.buf.take v.buf_used).map Word.not).length = v.buf_used := by
    simp only [List.length_map, List.length_take]
    omega
  unfold BitVec.not_owned
  have hbu2 : BitVec.buf_used
      ⟨v.len, (v.buf.take v.buf_used).map Word.not ++ v.buf.drop v.buf_used⟩ =
      v.buf_used := rfl
  rw [hbu2]
  rw [List.take_left' hlen, List.drop_left' hlen, map_not_not, List.take_append_drop]

theorem not_ref_not_ref {v : BitVec} (h : Wf v) :
    v.not_ref.not_ref = ⟨v.len, v.buf.take v.buf_used⟩ := by
  have hbu : v.buf_used ≤ v.buf.length := h.1
  unfold BitVec.not_ref
  have hbu2 : BitVec.buf_used ⟨v.len, (v.buf.map Word.not).take v.buf_used⟩ =
      v.buf_used := rfl
  rw [hbu2]
  rw [List.map_take, map_not_not, List.take_take, Nat.min_self]

theorem beq_refl (v : BitVec) : v.beq v = true := by
  unfold BitVec.beq
  split
  · rename_i h
    exact absurd rfl h
  · split
    · rfl
    · simp only [Loc.new]
      rw [if_neg (by simp)]
      simp [Nat.xor_self, Word.align_last_to_lsb]

theorem get_unchecked_take {v : BitVec} {k i : Nat} (hik : i / 64 < k) :
    BitVec.get_unchecked ⟨v.len, v.buf.take k⟩ i = v.get_unchecked i := by
  rw [get_unchecked_def, get_unchecked_def]
  show ((v.buf.take k).getD (i / 64) 0).testBit (63 - i % 64) = _
  rw [List.getD_eq_getElem?_getD, List.getElem?_take_of_lt hik,
    ← List.getD_eq_getElem?_getD]

/-! Reading around an in-place word update. -/

theorem get_unchecked_set_buf {v : BitVec} {p w' L i : Nat} (hq : i / 64 ≠ p) :
    BitVec.get_unchecked ⟨L, v.buf.set p w'⟩ i = v.get_unchecked i := by
  rw [get_unchecked_def, get_unchecked_def]
  show ((v.buf.set p w').getD (i / 64) 0).testBit (63 - i % 64) = _
  rw [List.getD_eq_getElem?_getD, List.getElem?_set_ne (by omega),
    ← List.getD_eq_getElem?_getD]

theorem get_unchecked_set_word_self {v : BitVec} {idx : Nat} (hp : idx / 64 < v.buf.length)
    {b : Bool} {L : Nat} :
    BitVec.get_unchecked
      ⟨L, v.buf.set (idx / 64) (Word.set (v.buf.getD (idx / 64) 0) (idx % 64) b)⟩ idx = b := by
  rw [get_unchecked_def]
  show ((v.buf.set (idx / 64) _).getD (idx / 64) 0).testBit (63 - idx % 64) = b
  rw [List.getD_eq_getElem?_getD, List.getElem?_set_self hp, Option.getD_some]
  rw [Word.set_testBit _ _ _ (by simp only [WORD_BITS]; try omega)
    (by simp only [WORD_BITS]; try omega)]
  rw [if_pos (by simp only [WORD_BITS]; try omega)]

theorem get_unchecked_set_word_other {v : BitVec} {idx : Nat} (hp : idx / 64 < v.buf.length)
    {b : Bool} {L i : Nat} (hq : i / 64 = idx / 64) (hbit : i % 64 ≠ idx % 64) :
    BitVec.get_unchecked
      ⟨L, v.buf.set (idx / 64) (Word.set (v.buf.getD (idx / 64) 0) (idx % 64) b)⟩ i =
      v.get_unchecked i := by
  rw [get_unchecked_def, get_unchecked_def]
  show ((v.buf.set (idx / 64) _).getD (i / 64) 0).testBit (63 - i % 64) = _
  rw [hq, List.getD_eq_getElem?_getD, List.getElem?_set_self hp, Option.getD_some]
  rw [Word.set_testBit _ _ _ (by simp only [WORD_BITS]; try omega)
    (by simp only [WORD_BITS]; try omega)]
  rw [if_neg (by simp only [WORD_BITS]; try omega)]

/-! Push followed by pop. -/

theorem push_pop {v : BitVec} (h : Wf v) (b : Bool) {v' : BitVec} (hp : v.push b = some v') :
    (v'.pop).1 = some b ∧ (v'.pop).2.beq v = true := by
  have hwf' : Wf v' := wf_push h hp
  have hwfp : Wf (v'.pop).2 := wf_pop hwf'
  unfold BitVec.push at hp
  by_cases hmax : v.len = USIZE_MAX
  · simp [hmax] at hp
  · rw [if_neg hmax] at hp
    simp only [Loc.new, WORD_BITS] at hp
    by_cases hper : v.len / 64 < v.buf.length
    · rw [if_pos hper] at hp
      obtain rfl := (Option.some.inj hp).symm
      constructor
      · unfold BitVec.pop
        rw [if_neg (by simp)]
        simp only [Loc.new, WORD_BITS]
        refine congrArg some ?_
        show BitVec.get_unchecked ⟨v.len + 1, v.buf.set (v.len / 64)
          (Word.set (v.buf.getD (v.len / 64) 0) (v.len % 64) b)⟩ (v.len + 1 - 1) = b
        rw [Nat.add_sub_cancel]
        exact get_unchecked_set_word_self hper
      · apply (beq_iff hwfp h).2
        refine ⟨by rw [pop_len_mk]; omega, ?_⟩
        intro i hi
        have hi' : i < v.len := by
          rw [pop_len_mk] at hi
          omega
        have hbits : BitVec.get_unchecked ⟨v.len + 1, v.buf.set (v.len / 64)
            (Word.set (v.buf.getD (v.len / 64) 0) (v.len % 64) b)⟩ i =
            v.get_unchecked i := by
          by_cases hq : i / 64 = v.len / 64
          · exact get_unchecked_set_word_other hper hq (by omega)
          · exact get_unchecked_set_buf hq
        calc (BitVec.pop ⟨v.len + 1, v.buf.set (v.len / 64)
              (Word.set (v.buf.getD (v.len / 64) 0) (v.len % 64) b)⟩).2.get_unchecked i
            = BitVec.get_unchecked ⟨v.len + 1, v.buf.set (v.len / 64)
              (Word.set (v.buf.getD (v.len / 64) 0) (v.len % 64) b)⟩ i := by
              rw [get_unchecked_def, get_unchecked_def, pop_buf_mk]
          _ = v.get_unchecked i := hbits
    · rw [if_neg hper] at hp
      have hb := buf_used_le_length_64 h
      have hlenmod : v.len % 64 = 0 ∧ v.buf.length = v.len / 64 := by omega
      have key : ∀ u : Nat, v' = ⟨v.len + 1, v.buf ++ [u]⟩ →
          u.testBit 63 = b →
          (v'.pop).1 = some b ∧ (v'.pop).2.beq v = true := by
        rintro u rfl hu
        constructor
        · unfold BitVec.pop
          rw [if_neg (by simp)]
          simp only [Loc.new, WORD_BITS]
          refine congrArg some ?_
          show BitVec.get_unchecked ⟨v.len + 1, v.buf ++ [u]⟩ (v.len + 1 - 1) = b
          rw [Nat.add_sub_cancel, get_unchecked_def]
          show ((v.buf ++ [u]).getD (v.len / 64) 0).testBit (63 - v.len % 64) = b
          rw [List.getD_eq_getElem?_getD,
            List.getElem?_append_right (by omega)]
          have e0 : v.len / 64 - v.buf.length = 0 := by omega
          rw [e0]
          simp only [List.getElem?_cons_zero, Option.getD_some]
          rw [hlenmod.1]
          exact hu
        · apply (beq_iff hwfp h).2
          refine ⟨by rw [pop_len_mk]; omega, ?_⟩
          intro i hi
          have hi' : i < v.len := by
            rw [pop_len_mk] at hi
            omega
          have hip : i / 64 < v.buf.length := by omega
          calc (BitVec.pop ⟨v.len + 1, v.buf ++ [u]⟩).2.get_unchecked i
              = BitVec.get_unchecked ⟨v.len + 1, v.buf ++ [u]⟩ i := by
                rw [get_unchecked_def, get_unchecked_def, pop_buf_mk]
            _ = v.get_unchecked i := by
                rw [get_unchecked_def, get_unchecked_def]
                show ((v.buf ++ [u]).getD (i / 64) 0).testBit (63 - i % 64) = _
                rw [List.getD_eq_getElem?_getD, List.getElem?_append_left hip,
                  ← List.getD_eq_getElem?_getD]
      cases b with
      | true =>
        rw [if_pos rfl] at hp
        refine key _ (Option.some.inj hp).symm (by decide)
      | false =>
        rw [if_neg (by simp)] at hp
        refine key _ (Option.some.inj hp).symm (by decide)

/-! Hashing. -/

theorem xor_shiftRight (x y n : Nat) : (x ^^^ y) >>> n = (x >>> n) ^^^ (y >>> n) := by
  apply Nat.eq_of_testBit_eq
  intro j
  simp [Nat.testBit_shiftRight, Nat.testBit_xor]

theorem hash_data_eq_of_beq {v other : BitVec} (hbeq : v.beq other = true) :
    v.hash_data = other.hash_data := by
  unfold BitVec.beq at hbeq
  split at hbeq
  · exact absurd hbeq (by simp)
  · rename_i hne
    have hlen : v.len = other.len := not_ne_iff.1 hne
    split at hbeq
    · rename_i h0
      unfold BitVec.hash_data
      rw [if_pos h0, if_pos (hlen ▸ h0)]
    · rename_i h0
      simp only [Loc.new, WORD_BITS] at hbeq
      split at hbeq
      · exact absurd hbeq (by simp)
      · rename_i hhead
        have hhead' := not_ne_iff.1 hhead
        have halign := beq_iff_eq.1 hbeq
        unfold Word.align_last_to_lsb WORD_BITS at halign
        rw [xor_shiftRight] at halign
        have htail := Nat.xor_eq_zero.1 halign
        unfold BitVec.hash_data
        rw [if_neg h0, if_neg (by omega)]
        simp only [Loc.new, WORD_BITS]
        rw [← hlen, hhead']
        unfold Word.align_last_to_lsb WORD_BITS
        rw [htail]

/-! Building from bytes. -/

theorem foldl_byte_aux (l : List Nat) (acc : Nat) :
    l.foldl (fun a b => a * 256 + b) acc =
      acc * 256 ^ l.length + l.foldl (fun a b => a * 256 + b) 0 := by
  induction l generalizing acc with
  | nil => simp
  | cons b t ih =>
    simp only [List.foldl_cons, List.length_cons]
    rw [ih (acc * 256 + b), ih (0 * 256 + b)]
    ring

theorem from_byte_array_lt {l : List Nat} (h : ∀ b ∈ l, b < 256) :
    Word.from_byte_array l < 256 ^ l.length := by
  unfold Word.from_byte_array
  induction l with
  | nil => simp
  | cons b t ih =>
    simp only [List.foldl_cons, List.length_cons]
    rw [foldl_byte_aux t (0 * 256 + b)]
    have hb : b < 256 := h b (List.mem_cons_self _ _)
    have hV : t.foldl (fun a b => a * 256 + b) 0 < 256 ^ t.length :=
      ih fun x hx => h x (List.mem_cons_of_mem _ hx)
    have hstep : (0 * 256 + b) * 256 ^ t.length + t.foldl (fun a b => a * 256 + b) 0 <
        (b + 1) * 256 ^ t.length := by
      simp only [Nat.zero_mul, Nat.zero_add, Nat.add_mul, Nat.one_mul]
      omega
    calc (0 * 256 + b) * 256 ^ t.length + t.foldl (fun a b => a * 256 + b) 0
        < (b + 1) * 256 ^ t.length := hstep
      _ ≤ 256 * 256 ^ t.length := Nat.mul_le_mul_right _ (by omega)
      _ = 256 ^ (t.length + 1) := by ring

theorem from_byte_array_testBit {l : List Nat} (h : ∀ b ∈ l, b < 256) :
    ∀ p, p < 8 * l.length →
      (Word.from_byte_array l).testBit p =
        (l.getD (l.length - 1 - p / 8) 0).testBit (p % 8) := by
  unfold Word.from_byte_array
  induction l with
  | nil =>
    intro p hp
    simp at hp
  | cons b t ih =>
    intro p hp
    simp only [List.length_cons] at hp
    simp only [List.foldl_cons, List.length_cons]
    rw [foldl_byte_aux t (0 * 256 + b)]
    simp only [Nat.zero_mul, Nat.zero_add]
    have hV : t.foldl (fun a b => a * 256 + b) 0 < 2 ^ (8 * t.length) := by
      have hlt := from_byte_array_lt (fun x hx => h x (List.mem_cons_of_mem _ hx))
      unfold Word.from_byte_array at hlt
      calc t.foldl (fun a b => a * 256 + b) 0 < 256 ^ t.length := hlt
        _ = 2 ^ (8 * t.length) := by
          rw [show (256 : Nat) = 2 ^ 8 by norm_num, ← pow_mul]
    have hmul : b * 256 ^ t.length = 2 ^ (8 * t.length) * b := by
      rw [show (256 : Nat) = 2 ^ 8 by norm_num, ← pow_mul, Nat.mul_comm]
    rw [hmul, Nat.testBit_mul_pow_two_add b hV p]
    by_cases hcase : p < 8 * t.length
    · rw [if_pos hcase, ih (fun x hx => h x (List.mem_cons_of_mem _ hx)) p hcase]
      have hdiv : p / 8 < t.length := by omega
      have e1 : t.length + 1 - 1 - p / 8 = (t.length - 1 - p / 8) + 1 := by omega
      rw [e1, List.getD_cons_succ]
    · rw [if_neg hcase]
      have e0 : t.length + 1 - 1 - p / 8 = 0 := by omega
      have e2 : p - 8 * t.length = p % 8 := by omega
      rw [e0, e2, List.getD_cons_zero]

theorem padded_getD {l : List Nat} {k : Nat} (hk : k < 8) (hlen : l.length ≤ 8) :
    (l ++ List.replicate (8 - l.length) 0).getD k 0 = l.getD k 0 := by
  by_cases h : k < l.length
  · rw [List.getD_eq_getElem?_getD, List.getElem?_append_left h,
      ← List.getD_eq_getElem?_getD]
  · rw [List.getD_eq_getElem?_getD, List.getElem?_append_right (by omega)]
    rw [List.getElem?_replicate, if_pos (by omega), Option.getD_some]
    rw [List.getD_eq_getElem?_getD, List.getElem?_eq_none (by omega), Option.getD_none]

theorem from_byte_slice_testBit {l : List Nat} (h : ∀ b ∈ l, b < 256) (hlen : l.length ≤ 8)
    {p : Nat} (hp : p < 64) :
    (Word.from_byte_slice l).testBit p = (l.getD (7 - p / 8) 0).testBit (p % 8) := by
  unfold Word.from_byte_slice WORD_BYTES
  have hplen : (l ++ List.replicate (8 - l.length) 0).length = 8 := by
    simp only [List.length_append, List.length_replicate]
    omega
  have hmem : ∀ b ∈ l ++ List.replicate (8 - l.length) 0, b < 256 := by
    intro x hx
    rcases List.mem_append.1 hx with hm | hm
    · exact h x hm
    · rw [(List.mem_replicate.1 hm).2]
      omega
  rw [from_byte_array_testBit hmem p (by omega), hplen]
  rw [show (8 : Nat) - 1 - p / 8 = 7 - p / 8 by omega]
  rw [padded_getD (by omega) hlen]

theorem from_byte_slice_lt {l : List Nat} (h : ∀ b ∈ l, b < 256) (hlen : l.length ≤ 8) :
    Word.from_byte_slice l < 2 ^ 64 := by
  unfold Word.from_byte_slice WORD_BYTES
  have hmem : ∀ b ∈ l ++ List.replicate (8 - l.length) 0, b < 256 := by
    intro x hx
    rcases List.mem_append.1 hx with hm | hm
    · exact h x hm
    · rw [(List.mem_replicate.1 hm).2]
      omega
  have hlt := from_byte_array_lt hmem
  have hplen : (l ++ List.replicate (8 - l.length) 0).length = 8 := by
    simp only [List.length_append, List.length_replicate]
    omega
  rw [hplen] at hlt
  calc Word.from_byte_array (l ++ List.replicate (8 - l.length) 0)
      < 256 ^ 8 := hlt
    _ = 2 ^ 64 := by norm_num

theorem buf_from_bytes_length (bytes : List Nat) :
    (buf_from_bytes bytes).length = (bytes.length + 7) / 8 := by
  induction bytes using buf_from_bytes.induct with
  | case1 =>
    unfold buf_from_bytes
    simp
  | case2 b hb ih =>
    unfold buf_from_bytes
    rw [if_neg hb]
    rw [List.length_cons, ih]
    simp only [List.length_drop, WORD_BYTES]
    have hpos : 0 < b.length := List.length_pos.mpr hb
    omega

theorem buf_from_bytes_mem {bytes : List Nat} (h : ∀ b ∈ bytes, b < 256) :
    ∀ w ∈ buf_from_bytes bytes, w < 2 ^ 64 := by
  induction bytes using buf_from_bytes.induct with
  | case1 =>
    unfold buf_from_bytes
    intro w hw
    simp at hw
  | case2 b hb ih =>
    unfold buf_from_bytes
    rw [if_neg hb]
    intro w hw
    rcases List.mem_cons.1 hw with rfl | hm
    · refine from_byte_slice_lt (fun x hx => ?_) ?_
      · exact h x (List.mem_of_mem_take hx)
      · simp only [List.length_take, WORD_BYTES]
        omega
    · exact ih (fun x hx => h x (List.mem_of_mem_drop hx)) w hm

theorem buf_from_bytes_testBit {bytes : List Nat} :
    (∀ b ∈ bytes, b < 256) → ∀ i, i < 8 * bytes.length →
      ((buf_from_bytes bytes).getD (i / 64) 0).testBit (63 - i % 64) =
        (bytes.getD (i / 8) 0).testBit (7 - i % 8) := by
  induction bytes using buf_from_bytes.induct with
  | case1 =>
    intro h i hi
    simp at hi
  | case2 b hb ih =>
    intro h i hi
    unfold buf_from_bytes
    rw [if_neg hb]
    by_cases hi64 : i < 64
    · have e0 : i / 64 = 0 := by omega
      rw [e0, List.getD_cons_zero]
      have htake : ∀ x ∈ b.take WORD_BYTES, x < 256 :=
        fun x hx => h x (List.mem_of_mem_take hx)
      have hlen : (b.take WORD_BYTES).length ≤ 8 := by
        simp only [List.length_take, WORD_BYTES]
        omega
      have hp : 63 - i % 64 < 64 := by omega
      rw [from_byte_slice_testBit htake hlen hp]
      have e1 : 7 - (63 - i % 64) / 8 = i / 8 := by omega
      have e2 : (63 - i % 64) % 8 = 7 - i % 8 := by omega
      rw [e1, e2]
      rw [List.getD_eq_getElem?_getD,
        List.getElem?_take_of_lt (by simp only [WORD_BYTES]; omega),
        ← List.getD_eq_getElem?_getD]
    · have hblen : 8 < b.length := by omega
      have e1 : i / 64 = (i - 64) / 64 + 1 := by omega
      rw [e1, List.getD_cons_succ]
      have hmem : ∀ x ∈ b.drop WORD_BYTES, x < 256 :=
        fun x hx => h x (List.mem_of_mem_drop hx)
      have hi2 : i - 64 < 8 * (b.drop WORD_BYTES).length := by
        simp only [List.length_drop, WORD_BYTES]
        omega
      have hrec := ih hmem (i - 64) hi2
      have e3 : 63 - (i - 64) % 64 = 63 - i % 64 := by omega
      rw [e3] at hrec
      rw [hrec]
      rw [List.getD_eq_getElem?_getD, List.getElem?_drop, ← List.getD_eq_getElem?_getD]
      have e4 : WORD_BYTES + (i - 64) / 8 = i / 8 := by
        simp only [WORD_BYTES]
        omega
      have e5 : 7 - (i - 64) % 8 = 7 - i % 8 := by omega
      rw [e4, e5]

theorem wf_from_bytes {bytes : List Nat} (h : ∀ b ∈ bytes, b < 256) {v : BitVec}
    (hv : BitVec.from_bytes bytes = some v) : Wf v := by
  unfold BitVec.from_bytes at hv
  split at hv
  · exact absurd hv (by simp)
  · rename_i hsz
    obtain rfl := (Option.some.inj hv).symm
    refine ⟨?_, by push_neg at hsz; exact hsz, ?_⟩
    · show BitVec.buf_used ⟨8 * bytes.length, buf_from_bytes bytes⟩ ≤ _
      simp only [BitVec.buf_used, WORD_BITS, buf_from_bytes_length]
      show (8 * bytes.length + 64 - 1) / 64 ≤ (bytes.length + 7) / 8
      omega
    · intro w hw
      simp only [WORD_BITS]
      exact buf_from_bytes_mem h w hw

theorem from_bytes_len {bytes : List Nat} {v : BitVec}
    (hv : BitVec.from_bytes bytes = some v) : v.len = 8 * bytes.length := by
  unfold BitVec.from_bytes at hv
  split at hv
  · exact absurd hv (by simp)
  · exact congrArg BitVec.len (Option.some.inj hv).symm


theorem from_bytes_get {bytes : List Nat} (h : ∀ b ∈ bytes, b < 256) {v : BitVec}
    (hv : BitVec.from_bytes bytes = some v) {i : Nat} (hi : i < 8 * bytes.length) :
    v.get_unchecked i = (bytes.getD (i / 8) 0).testBit (7 - i % 8) := by
  unfold BitVec.from_bytes at hv
  split at hv
  · exact absurd hv (by simp)
  · obtain rfl := (Option.some.inj hv).symm
    rw [get_unchecked_def]
    exact buf_from_bytes_testBit h i hi

/-! Remaining helpers for the claim theorems. -/

theorem wf_len_le {v : BitVec} (h : Wf v) {m : Nat} (hm : m ≤ v.len) : Wf ⟨m, v.buf⟩ := by
  refine ⟨?_, by have := h.2.1; show m ≤ USIZE_MAX; omega, h.2.2⟩
  have h1 := h.1
  simp only [BitVec.buf_used, WORD_BITS] at h1 ⊢
  omega

theorem beq_take_buf {v : BitVec} (h : Wf v) {k : Nat} (hk : v.buf_used ≤ k) :
    BitVec.beq ⟨v.len, v.buf.take k⟩ v = true := by
  apply (beq_iff (wf_take_buf h hk) h).2
  refine ⟨rfl, ?_⟩
  intro i hi
  apply get_unchecked_take
  have hi' : i < v.len := hi
  have hbu := hk
  simp only [BitVec.buf_used, WORD_BITS] at hbu
  show i / 64 < k
  omega

theorem bitand_spec {a b : BitVec} (h1 : Wf a) (h2 : Wf b) :
    (a.bitwise_operation b fun l r => l &&& r).len = min a.len b.len ∧
    (a.bitwise_operation b fun l r => l &&& r).buf =
      List.zipWith (fun l r => l &&& r)
        (a.buf.take ((min a.len b.len + 64 - 1) / 64))
        (b.buf.take ((min a.len b.len + 64 - 1) / 64)) ∧
    ∀ i, i < min a.len b.len →
      (a.bitwise_operation b fun l r => l &&& r).get_unchecked i =
        (a.get_unchecked i && b.get_unchecked i) := by
  refine ⟨bitwise_len a b _, bitwise_buf_eq a b _, ?_⟩
  intro i hi
  exact bitwise_get h1 h2 (fun x y j => Nat.testBit_and x y j) hi

theorem bitor_spec {a b : BitVec} (h1 : Wf a) (h2 : Wf b) :
    (a.bitwise_operation b fun l r => l ||| r).len = min a.len b.len ∧
    (a.bitwise_operation b fun l r => l ||| r).buf =
      List.zipWith (fun l r => l ||| r)
        (a.buf.take ((min a.len b.len + 64 - 1) / 64))
        (b.buf.take ((min a.len b.len + 64 - 1) / 64)) ∧
    ∀ i, i < min a.len b.len →
      (a.bitwise_operation b fun l r => l ||| r).get_unchecked i =
        (a.get_unchecked i || b.get_unchecked i) := by
  refine ⟨bitwise_len a b _, bitwise_buf_eq a b _, ?_⟩
  intro i hi
  exact bitwise_get h1 h2 (fun x y j => Nat.testBit_or x y j) hi

theorem bitxor_spec {a b : BitVec} (h1 : Wf a) (h2 : Wf b) :
    (a.bitwise_operation b fun l r => l ^^^ r).len = min a.len b.len ∧
    (a.bitwise_operation b fun l r => l ^^^ r).buf =
      List.zipWith (fun l r => l ^^^ r)
        (a.buf.take ((min a.len b.len + 64 - 1) / 64))
        (b.buf.take ((min a.len b.len + 64 - 1) / 64)) ∧
    ∀ i, i < min a.len b.len →
      (a.bitwise_operation b fun l r => l ^^^ r).get_unchecked i =
        Bool.xor (a.get_unchecked i) (b.get_unchecked i) := by
  refine ⟨bitwise_len a b _, bitwise_buf_eq a b _, ?_⟩
  intro i hi
  exact bitwise_get h1 h2 (fun x y j => Nat.testBit_xor x y j) hi

theorem bitand_swap (a b : BitVec) :
    a.bitand_ref_owned b = a.bitwise_operation b fun l r => l &&& r := by
  unfold BitVec.bitand_ref_owned BitVec.bitand_owned_ref
  exact bitwise_operation_comm a b _ fun x y => Nat.and_comm x y

theorem bitor_swap (a b : BitVec) :
    a.bitor_ref_owned b = a.bitwise_operation b fun l r => l ||| r := by
  unfold BitVec.bitor_ref_owned BitVec.bitor_owned_ref
  exact bitwise_operation_comm a b _ fun x y => Nat.or_comm x y

theorem bitxor_swap (a b : BitVec) :
    a.bitxor_ref_owned b = a.bitwise_operation b fun l r => l ^^^ r := by
  unfold BitVec.bitxor_ref_owned BitVec.bitxor_owned_ref
  exact bitwise_operation_comm a b _ fun x y => Nat.xor_comm x y

theorem buf_from_bytes_singleton (b : Nat) :
    buf_from_bytes [b] = [Word.from_byte_slice [b]] := by
  unfold buf_from_bytes
  norm_num
  unfold buf_from_bytes
  simp [WORD_BYTES]

theorem from_byte_slice_singleton (b : Nat) : Word.from_byte_slice [b] = b * 2 ^ 56 := by
  unfold Word.from_byte_slice Word.from_byte_array WORD_BYTES
  norm_num [List.replicate, List.foldl]
  ring

/-- Specification bundle for one binary word operator applied to two
vectors: result length, result storage shape, and per-bit behaviour. -/
def binop_spec (a b g : BitVec) (wop : Nat → Nat → Nat) (bop : Bool → Bool → Bool) : Prop :=
  g.len = min a.len b.len ∧
  g.buf = List.zipWith wop (a.buf.take ((min a.len b.len + 64 - 1) / 64))
    (b.buf.take ((min a.len b.len + 64 - 1) / 64)) ∧
  ∀ i, i < min a.len b.len → g.get_unchecked i = bop (a.get_unchecked i) (b.get_unchecked i)

/-! The claim theorems. -/

/-- C1: two BitVec values compare equal iff their lengths are equal and
every logical bit at positions 0 through length-1 matches; bits stored
beyond the logical length never affect equality, and two vectors of length
zero are always equal regardless of storage slack. -/
theorem C1_eq_iff_logical_bits (v other : BitVec) (h1 : Wf v) (h2 : Wf other) :
    (v.beq other = true ↔
      v.len = other.len ∧
        ∀ i, i < v.len → v.get_unchecked i = other.get_unchecked i) ∧
    (v.len = 0 → other.len = 0 → v.beq other = true) := by
  refine ⟨beq_iff h1 h2, fun hz1 hz2 => ?_⟩
  exact (beq_iff h1 h2).2 ⟨by omega, fun i hi => absurd hi (by omega)⟩

/-- Witness for C1 at two concrete vectors whose storage differs only in a
slack word. -/
theorem C1_eq_iff_logical_bits_witness :
    (BitVec.beq ⟨1, [0]⟩ ⟨1, [0, 7]⟩ = true ↔
      (1 : Nat) = 1 ∧ ∀ i, i < 1 →
        BitVec.get_unchecked ⟨1, [0]⟩ i = BitVec.get_unchecked ⟨1, [0, 7]⟩ i) ∧
    ((1 : Nat) = 0 → (1 : Nat) = 0 → BitVec.beq ⟨1, [0]⟩ ⟨1, [0, 7]⟩ = true) :=
  C1_eq_iff_logical_bits ⟨1, [0]⟩ ⟨1, [0, 7]⟩ (by decide) (by decide)

/-- C2 counterexample: pop does not truncate the now-unused trailing word.
On the 65-bit all-true vector (two storage words), popping one bit makes the
new length word-aligned at 64, yet the storage still holds 2 words; and
draining all 65 bits leaves len 0 with the storage still at 2 words, not
the claimed 0 or 1. -/
theorem C2_pop_counterexample :
    (BitVec.pop ⟨65, [2 ^ 64 - 1, 2 ^ 63]⟩).2.len = 64 ∧
    (BitVec.pop ⟨65, [2 ^ 64 - 1, 2 ^ 63]⟩).2.buf.length = 2 ∧
    (BitVec.pop_iter ⟨65, [2 ^ 64 - 1, 2 ^ 63]⟩ 65).len = 0 ∧
    ¬(BitVec.pop_iter ⟨65, [2 ^ 64 - 1, 2 ^ 63]⟩ 65).buf.length ≤ 1 := by
  refine ⟨by rw [pop_len_mk], by rw [pop_buf_mk]; rfl, ?_, ?_⟩
  · rw [pop_iter_len]
    rfl
  · rw [pop_iter_buf]
    simp

/-- C2 amended: pop leaves the storage untouched (the trailing word is only
logically dropped, never truncated), and popping every bit off any vector
drains the length to zero with the storage word count unchanged. -/
theorem C2_pop_amended (v : BitVec) (n : Nat) :
    (v.pop).2.buf = v.buf ∧ (v.pop).2.len = v.len - 1 ∧
    (v.pop_iter n).buf = v.buf ∧ (v.pop_iter v.len).len = 0 := by
  refine ⟨pop_buf v, pop_len v, pop_iter_buf v n, ?_⟩
  rw [pop_iter_len]
  omega

/-- C3 counterexample: deserializing a length field of 16 with a single
supplied byte (fewer than the ceil(16/8) = 2 bytes the claim says must be
validated) does not fail with a decode error; it succeeds and silently
truncates the length to the 8 bits actually supplied. -/
theorem C3_deserialize_counterexample :
    BitVec.deserialize 16 [255] = some ⟨8, [255 * 2 ^ 56]⟩ ∧ (8 : Nat) ≠ 16 := by
  constructor
  · unfold BitVec.deserialize BitVec.from_bytes
    rw [if_neg (by norm_num [USIZE_MAX])]
    rw [buf_from_bytes_singleton, from_byte_slice_singleton]
    norm_num
  · decide

/-- C3 amended: deserialization performs no validation of the byte count
against the length field; whenever the byte buffer itself fits in a usize
worth of bits it succeeds, with the resulting length silently clamped to
the minimum of the stored length field and the bit count of the buffer. -/
theorem C3_deserialize_amended (len : Nat) (bytes : List Nat)
    (hb : ∀ b ∈ bytes, b < 256) (hsz : 8 * bytes.length ≤ USIZE_MAX) :
    ∃ v, BitVec.deserialize len bytes = some v ∧
      v.len = min (8 * bytes.length) len ∧ Wf v := by
  have hfb : BitVec.from_bytes bytes = some ⟨8 * bytes.length, buf_from_bytes bytes⟩ := by
    unfold BitVec.from_bytes
    rw [if_neg (by omega)]
  unfold BitVec.deserialize
  rw [hfb]
  refine ⟨_, rfl, rfl, ?_⟩
  exact wf_len_le (wf_from_bytes hb hfb) (Nat.min_le_left _ _)

/-- Witness for the amended C3 at the counterexample input. -/
theorem C3_deserialize_amended_witness :
    ∃ v, BitVec.deserialize 16 [255] = some v ∧
      v.len = min (8 * [(255 : Nat)].length) 16 ∧ Wf v :=
  C3_deserialize_amended 16 [255] (by decide) (by decide)

/-- C4: every reachable state of the public API satisfies the invariant
that ceil(length / WORD_BITS) never exceeds the number of initialized
storage words (Wf also carries the machine-integer bounds): construction,
conversions, push, pop, set, extend, reserve, both shrinks, clone, all
ownership variants of AND, OR and XOR, and both forms of NOT preserve it. -/
theorem C4_invariant_preserved :
    Wf BitVec.new ∧
    (∀ c, Wf (BitVec.with_capacity c)) ∧
    (∀ bytes v, (∀ b ∈ bytes, b < 256) → BitVec.from_bytes bytes = some v → Wf v) ∧
    (∀ l v, BitVec.from_iter l = some v → Wf v) ∧
    (∀ v b v', Wf v → v.push b = some v' → Wf v') ∧
    (∀ v, Wf v → Wf (v.pop).2) ∧
    (∀ v i b v', Wf v → v.set i b = some v' → Wf v') ∧
    (∀ v l v', Wf v → v.extend l = some v' → Wf v') ∧
    (∀ v a v', Wf v → v.reserve a = some v' → Wf v') ∧
    (∀ v, Wf v → Wf v.shrink_to_fit) ∧
    (∀ v m, Wf v → Wf (v.shrink_to m)) ∧
    (∀ v, Wf v → Wf v.clone) ∧
    (∀ a b, Wf a → Wf b →
      Wf (a.bitand_owned_owned b) ∧ Wf (a.bitand_owned_ref b) ∧
      Wf (a.bitand_ref_owned b) ∧ Wf (a.bitand_ref_ref b) ∧
      Wf (a.bitor_owned_owned b) ∧ Wf (a.bitor_owned_ref b) ∧
      Wf (a.bitor_ref_owned b) ∧ Wf (a.bitor_ref_ref b) ∧
      Wf (a.bitxor_owned_owned b) ∧ Wf (a.bitxor_owned_ref b) ∧
      Wf (a.bitxor_ref_owned b) ∧ Wf (a.bitxor_ref_ref b)) ∧
    (∀ v, Wf v → Wf v.not_owned ∧ Wf v.not_ref) := by
  refine ⟨wf_new, wf_with_capacity, ?_, ?_, ?_, ?_, ?_, ?_, ?_, ?_, ?_, ?_, ?_, ?_⟩
  · exact fun bytes v hb hv => wf_from_bytes hb hv
  · exact fun l v hv => wf_from_iter hv
  · exact fun v b v' h hp => wf_push h hp
  · exact fun v h => wf_pop h
  · exact fun v i b v' h hs => wf_set h hs
  · exact fun v l v' h he => wf_extend h he
  · exact fun v a v' h hr => wf_reserve h hr
  · exact fun v h => wf_shrink_to_fit h
  · exact fun v m h => wf_shrink_to h m
  · exact fun v h => wf_clone h
  · intro a b h1 h2
    have hand : ∀ x y : Nat, x < 2 ^ WORD_BITS → y < 2 ^ WORD_BITS →
        (x &&& y) < 2 ^ WORD_BITS := fun x y hx hy => Nat.and_lt_two_pow x hy
    have hor : ∀ x y : Nat, x < 2 ^ WORD_BITS → y < 2 ^ WORD_BITS →
        (x ||| y) < 2 ^ WORD_BITS := fun x y hx hy => Nat.or_lt_two_pow hx hy
    have hxor : ∀ x y : Nat, x < 2 ^ WORD_BITS → y < 2 ^ WORD_BITS →
        (x ^^^ y) < 2 ^ WORD_BITS := fun x y hx hy => Nat.xor_lt_two_pow hx hy
    refine ⟨?_, ?_, ?_, ?_, ?_, ?_, ?_, ?_, ?_, ?_, ?_, ?_⟩
    · exact wf_bitwise_operation h1 h2 hand
    · exact wf_bitwise_operation h1 h2 hand
    · rw [bitand_swap]
      exact wf_bitwise_operation h1 h2 hand
    · exact wf_bitwise_operation h1 h2 hand
    · exact wf_bitwise_operation h1 h2 hor
    · exact wf_bitwise_operation h1 h2 hor
    · rw [bitor_swap]
      exact wf_bitwise_operation h1 h2 hor
    · exact wf_bitwise_operation h1 h2 hor
    · exact wf_bitwise_operation h1 h2 hxor
    · exact wf_bitwise_operation h1 h2 hxor
    · rw [bitxor_swap]
      exact wf_bitwise_operation h1 h2 hxor
    · exact wf_bitwise_operation h1 h2 hxor
  · exact fun v h => ⟨wf_not_owned h, wf_not_ref h⟩

/-- Witness for C4: the pop conjunct applied at a concrete vector. -/
theorem C4_invariant_preserved_witness :
    Wf (BitVec.pop ⟨1, [2 ^ 63]⟩).2 :=
  C4_invariant_preserved.2.2.2.2.2.1 ⟨1, [2 ^ 63]⟩ (by decide)

/-- C5: AND, OR and XOR in each of the four ownership variants satisfy the
binop specification: result length min(len a, len b), storage equal to the
elementwise word operation over the first ceil(min/WORD_BITS) words of
both operands with further words discarded, and logical bit i equal to the
boolean operator of the operand bits. -/
theorem C5_binary_ops (a b : BitVec) (h1 : Wf a) (h2 : Wf b) :
    binop_spec a b (a.bitand_owned_owned b) (fun l r => l &&& r) (fun x y => x && y) ∧
    binop_spec a b (a.bitand_owned_ref b) (fun l r => l &&& r) (fun x y => x && y) ∧
    binop_spec a b (a.bitand_ref_owned b) (fun l r => l &&& r) (fun x y => x && y) ∧
    binop_spec a b (a.bitand_ref_ref b) (fun l r => l &&& r) (fun x y => x && y) ∧
    binop_spec a b (a.bitor_owned_owned b) (fun l r => l ||| r) (fun x y => x || y) ∧
    binop_spec a b (a.bitor_owned_ref b) (fun l r => l ||| r) (fun x y => x || y) ∧
    binop_spec a b (a.bitor_ref_owned b) (fun l r => l ||| r) (fun x y => x || y) ∧
    binop_spec a b (a.bitor_ref_ref b) (fun l r => l ||| r) (fun x y => x || y) ∧
    binop_spec a b (a.bitxor_owned_owned b) (fun l r => l ^^^ r) Bool.xor ∧
    binop_spec a b (a.bitxor_owned_ref b) (fun l r => l ^^^ r) Bool.xor ∧
    binop_spec a b (a.bitxor_ref_owned b) (fun l r => l ^^^ r) Bool.xor ∧
    binop_spec a b (a.bitxor_ref_ref b) (fun l r => l ^^^ r) Bool.xor := by
  refine ⟨?_, ?_, ?_, ?_, ?_, ?_, ?_, ?_, ?_, ?_, ?_, ?_⟩
  · exact bitand_spec h1 h2
  · exact bitand_spec h1 h2
  · unfold binop_spec
    rw [bitand_swap]
    exact bitand_spec h1 h2
  · exact bitand_spec h1 h2
  · exact bitor_spec h1 h2
  · exact bitor_spec h1 h2
  · unfold binop_spec
    rw [bitor_swap]
    exact bitor_spec h1 h2
  · exact bitor_spec h1 h2
  · exact bitxor_spec h1 h2
  · exact bitxor_spec h1 h2
  · unfold binop_spec
    rw [bitxor_swap]
    exact bitxor_spec h1 h2
  · exact bitxor_spec h1 h2

/-- Witness for C5: the owned-owned AND conjunct at concrete vectors. -/
theorem C5_binary_ops_witness :
    binop_spec ⟨1, [0]⟩ ⟨2, [2 ^ 63]⟩
      (BitVec.bitand_owned_owned ⟨1, [0]⟩ ⟨2, [2 ^ 63]⟩)
      (fun l r => l &&& r) (fun x y => x && y) :=
  (C5_binary_ops ⟨1, [0]⟩ ⟨2, [2 ^ 63]⟩ (by decide) (by decide)).1

/-- C6: the data fed to the hasher is the length, the head words verbatim
and the normalized final live word (never raw slack bits), so any two
vectors that compare equal feed identical data to the hasher. -/
theorem C6_hash_follows_eq (v other : BitVec) (hbeq : v.beq other = true) :
    v.hash_data = other.hash_data :=
  hash_data_eq_of_beq hbeq

/-- Witness for C6 at two equal vectors with different slack. -/
theorem C6_hash_follows_eq_witness :
    BitVec.hash_data ⟨1, [0]⟩ = BitVec.hash_data ⟨1, [0, 7]⟩ :=
  C6_hash_follows_eq ⟨1, [0]⟩ ⟨1, [0, 7]⟩ (by decide)

/-- C7: pushing a bit and then popping returns exactly that bit, and the
vector afterwards compares equal to the original (the push succeeds for
every length below the usize::MAX capacity-overflow panic). -/
theorem C7_push_pop_identity (v : BitVec) (b : Bool) (h : Wf v)
    (hmax : v.len ≠ USIZE_MAX) :
    ∃ v', v.push b = some v' ∧ (v'.pop).1 = some b ∧ (v'.pop).2.beq v = true := by
  have hsome : ∃ v', v.push b = some v' := by
    unfold BitVec.push
    rw [if_neg hmax]
    simp only [Loc.new, WORD_BITS]
    by_cases hper : v.len / 64 < v.buf.length
    · rw [if_pos hper]
      exact ⟨_, rfl⟩
    · rw [if_neg hper]
      cases b
      · rw [if_neg (by simp)]
        exact ⟨_, rfl⟩
      · rw [if_pos rfl]
        exact ⟨_, rfl⟩
  obtain ⟨v', hv'⟩ := hsome
  exact ⟨v', hv', (push_pop h b hv').1, (push_pop h b hv').2⟩

/-- Witness for C7 at a concrete vector and bit. -/
theorem C7_push_pop_identity_witness :
    ∃ v', BitVec.push ⟨1, [0]⟩ true = some v' ∧
      (v'.pop).1 = some true ∧ (v'.pop).2.beq ⟨1, [0]⟩ = true :=
  C7_push_pop_identity ⟨1, [0]⟩ true (by decide) (by decide)

/-- C8: double NOT restores a vector equal to the original, for both the
owned (in-place) form and the borrowed (collecting) form of NOT. -/
theorem C8_double_not_identity (v : BitVec) (h : Wf v) :
    BitVec.beq (v.not_owned.not_owned) v = true ∧
    BitVec.beq (v.not_ref.not_ref) v = true := by
  constructor
  · rw [not_owned_not_owned h]
    exact beq_refl v
  · rw [not_ref_not_ref h]
    exact beq_take_buf h (le_refl _)

/-- Witness for C8 at a concrete vector. -/
theorem C8_double_not_identity_witness :
    BitVec.beq ((BitVec.not_owned (BitVec.not_owned ⟨1, [0]⟩))) ⟨1, [0]⟩ = true ∧
    BitVec.beq ((BitVec.not_ref (BitVec.not_ref ⟨1, [0]⟩))) ⟨1, [0]⟩ = true :=
  C8_double_not_identity ⟨1, [0]⟩ (by decide)

/-- C9: building from a byte list yields length 8 times the byte count with
each byte contributing its bits most significant first: logical bit i is
bit 7 - (i mod 8) of byte i div 8. In particular the single byte 0b11110000
yields an 8-bit vector whose bits 0-3 are true and 4-7 are false. -/
theorem C9_from_bytes_msb_first (bytes : List Nat) (hb : ∀ b ∈ bytes, b < 256)
    (hsz : 8 * bytes.length ≤ USIZE_MAX) :
    (∃ v, BitVec.from_bytes bytes = some v ∧ v.len = 8 * bytes.length ∧
      ∀ i, i < 8 * bytes.length →
        v.get_unchecked i = (bytes.getD (i / 8) 0).testBit (7 - i % 8)) ∧
    (∃ v0, BitVec.from_bytes [0b11110000] = some v0 ∧ v0.len = 8 ∧
      ∀ i, i < 8 → v0.get_unchecked i = decide (i < 4)) := by
  constructor
  · have hfb : BitVec.from_bytes bytes = some ⟨8 * bytes.length, buf_from_bytes bytes⟩ := by
      unfold BitVec.from_bytes
      rw [if_neg (by omega)]
    exact ⟨_, hfb, from_bytes_len hfb, fun i hi => from_bytes_get hb hfb hi⟩
  · have hb0 : ∀ b ∈ [(0b11110000 : Nat)], b < 256 := by decide
    have hfb0 : BitVec.from_bytes [(0b11110000 : Nat)] =
        some ⟨8 * [(0b11110000 : Nat)].length, buf_from_bytes [(0b11110000 : Nat)]⟩ := by
      unfold BitVec.from_bytes
      rw [if_neg (by norm_num [USIZE_MAX])]
    refine ⟨_, hfb0, from_bytes_len hfb0, ?_⟩
    intro i hi
    rw [from_bytes_get hb0 hfb0 (by simpa using hi)]
    have hfin : ∀ i, i < 8 →
        ([(0b11110000 : Nat)].getD (i / 8) 0).testBit (7 - i % 8) = decide (i < 4) := by
      decide
    exact hfin i hi

/-- Witness for C9 at the single byte 0b11110000. -/
theorem C9_from_bytes_msb_first_witness :
    (∃ v, BitVec.from_bytes [(0b11110000 : Nat)] = some v ∧
      v.len = 8 * [(0b11110000 : Nat)].length ∧
      ∀ i, i < 8 * [(0b11110000 : Nat)].length →
        v.get_unchecked i = ([(0b11110000 : Nat)].getD (i / 8) 0).testBit (7 - i % 8)) ∧
    (∃ v0, BitVec.from_bytes [0b11110000] = some v0 ∧ v0.len = 8 ∧
      ∀ i, i < 8 → v0.get_unchecked i = decide (i < 4)) :=
  C9_from_bytes_msb_first [0b11110000] (by decide) (by decide)

/-- C10: setting an in-bounds index returns some, the bit at that index
becomes the written value, and the length and every other logical bit are
unchanged. -/
theorem C10_set_frame (v : BitVec) (i : Nat) (b : Bool) (h : Wf v) (hi : i < v.len) :
    ∃ v', v.set i b = some v' ∧ v'.len = v.len ∧ v'.get_unchecked i = b ∧
      ∀ j, j < v.len → j ≠ i → v'.get_unchecked j = v.get_unchecked j := by
  have hp : i / 64 < v.buf.length := by
    have := buf_used_le_length_64 h
    omega
  refine ⟨v.set_unchecked i b, ?_, rfl, ?_, ?_⟩
  · unfold BitVec.set
    rw [if_neg (by omega)]
  · show BitVec.get_unchecked
      ⟨v.len, v.buf.set (i / 64) (Word.set (v.buf.getD (i / 64) 0) (i % 64) b)⟩ i = b
    exact get_unchecked_set_word_self hp
  · intro j hj hne
    show BitVec.get_unchecked
      ⟨v.len, v.buf.set (i / 64) (Word.set (v.buf.getD (i / 64) 0) (i % 64) b)⟩ j =
      v.get_unchecked j
    by_cases hq : j / 64 = i / 64
    · exact get_unchecked_set_word_other hp hq (by omega)
    · exact get_unchecked_set_buf hq

/-- Witness for C10 at a concrete vector and index. -/
theorem C10_set_frame_witness :
    ∃ v', BitVec.set ⟨2, [0]⟩ 0 true = some v' ∧ v'.len = 2 ∧
      v'.get_unchecked 0 = true ∧
      ∀ j, j < 2 → j ≠ 0 → v'.get_unchecked j = BitVec.get_unchecked ⟨2, [0]⟩ j :=
  C10_set_frame ⟨2, [0]⟩ 0 true (by decide) (by decide)

end Bitvek
